import Mathlib

/-!
Verification of the Piff Gaussian-process interpolation module
(`piff/gp_interp.py`) against its natural-language specification.

The Python code is shallowly embedded:
* `EmpiricalKernel` (a wrapper around a user covariance function of two
  coordinate differences) is modelled over `ℚ` with lists as numpy arrays;
  fallible numpy indexing and Python `raise` become `Except String`.
* `AnisotropicRBF` (a Mahalanobis-metric squared-exponential kernel with a
  Cholesky reparameterization of its inverse covariance matrix) is modelled
  over `ℝ` with `Matrix (Fin n) (Fin n) ℝ` and `Fin`-indexed vectors.
* `GPInterp` (the orchestrator) is modelled both at value level (for the
  result-shape claims) and over an explicit object heap (for the
  no-aliasing/no-mutation claim).
-/

/-! ### EmpiricalKernel (`gp_interp.py` lines 136-158) -/

/-- The `EmpiricalKernel` object: it just stores the user-supplied covariance
function `fn` of two coordinate differences.  Scalars are modelled as `ℚ`. -/
structure EmpKernel where
  fn : ℚ → ℚ → ℚ

/-- `EmpiricalKernel.__init__` (lines 143-145): stores `fn` and asserts
`fn(0, 0) == 1`.  A failed Python `assert` aborts construction, modelled by
`none`. -/
def empInit (fn : ℚ → ℚ → ℚ) : Option EmpKernel :=
  if fn 0 0 = 1 then some ⟨fn⟩ else none

/-- Extract column `j` of a numpy 2-d array modelled as a list of rows;
`none` models the `IndexError` raised when some row is too short. -/
def getCol : List (List ℚ) → ℕ → Option (List ℚ)
  | [], _ => some []
  | r :: rs, j =>
    match r[j]?, getCol rs j with
    | some v, some c => some (v :: c)
    | _, _ => none

/-- `EmpiricalKernel.__call__` (lines 147-158): raises for `eval_gradient`,
defaults `Y` to `X`, then builds the outer difference tables of column 0 and
column 1 (`np.subtract.outer`) and applies `fn` elementwise. -/
def empCall (k : EmpKernel) (X : List (List ℚ)) (Y : Option (List (List ℚ)))
    (eval_gradient : Bool) : Except String (List (List ℚ)) :=
  if eval_gradient then
    .error "Cannot evaluate gradient for EmpiricalKernel."
  else
    let Yv := Y.getD X
    match getCol X 0, getCol X 1, getCol Yv 0, getCol Yv 1 with
    | some x0, some x1, some y0, some y1 =>
        .ok ((x0.zip x1).map (fun ab =>
          (y0.zip y1).map (fun cd => k.fn (ab.1 - cd.1) (ab.2 - cd.2))))
    | _, _, _, _ => .error "IndexError"

/-- C5: `EmpiricalKernel` construction succeeds iff `fn(0,0) == 1`. -/
theorem empInit_succeeds_iff (fn : ℚ → ℚ → ℚ) :
    (empInit fn).isSome ↔ fn 0 0 = 1 := by
  unfold empInit
  by_cases h : fn 0 0 = 1 <;> simp [h]

/-- C7: calling an `EmpiricalKernel` with `eval_gradient=True` always fails,
whatever `X` and `Y` are. -/
theorem empCall_gradient_fails (k : EmpKernel) (X : List (List ℚ))
    (Y : Option (List (List ℚ))) :
    empCall k X Y true = .error "Cannot evaluate gradient for EmpiricalKernel." := by
  rfl

/-- Column `j < 2` is unchanged when every row is truncated to its first two
entries. -/
theorem getCol_map_take (rows : List (List ℚ)) (j : ℕ) (hj : j < 2) :
    getCol (rows.map (List.take 2)) j = getCol rows j := by
  induction rows with
  | nil => rfl
  | cons r rs ih =>
      simp only [List.map_cons, getCol, ih]
      have : (r.take 2)[j]? = r[j]? := List.getElem?_take_of_lt hj
      rw [this]

/-- Column extraction succeeds when every row is long enough. -/
theorem getCol_isSome (rows : List (List ℚ)) (j : ℕ)
    (h : ∀ r ∈ rows, j < r.length) : (getCol rows j).isSome := by
  induction rows with
  | nil => rfl
  | cons r rs ih =>
      have h1 : j < r.length := h r (List.mem_cons_self r rs)
      have h2 : (getCol rs j).isSome := ih (fun s hs => h s (List.mem_cons_of_mem r hs))
      have hr : r[j]? = some (r.get ⟨j, h1⟩) := List.getElem?_eq_getElem h1
      simp only [getCol]
      rcases Option.isSome_iff_exists.mp h2 with ⟨c, hc⟩
      rw [hr, hc]
      rfl

/-- Unfolding of `empCall` at `eval_gradient = false`. -/
theorem empCall_false_eq (k : EmpKernel) (X : List (List ℚ))
    (Y : Option (List (List ℚ))) :
    empCall k X Y false =
      (match getCol X 0, getCol X 1, getCol (Y.getD X) 0, getCol (Y.getD X) 1 with
       | some x0, some x1, some y0, some y1 =>
           .ok ((x0.zip x1).map (fun ab =>
             (y0.zip y1).map (fun cd => k.fn (ab.1 - cd.1) (ab.2 - cd.2))))
       | _, _, _, _ => .error "IndexError") := rfl

/-- C10: when every row of `X` (and of `Y` when present) has at least the two
required covariate columns, evaluating an `EmpiricalKernel` succeeds and only
the first two columns matter: the result is unchanged when all rows are
truncated to their first two entries. -/
theorem empCall_ignores_extra_columns (k : EmpKernel) (X : List (List ℚ))
    (Y : Option (List (List ℚ)))
    (hX : ∀ r ∈ X, 2 ≤ r.length) (hY : ∀ r ∈ Y.getD X, 2 ≤ r.length) :
    (∃ M, empCall k X Y false = .ok M) ∧
    empCall k X Y false =
      empCall k (X.map (List.take 2)) (Y.map (List.map (List.take 2))) false := by
  have hx0 := getCol_isSome X 0 (fun r hr => lt_of_lt_of_le (by norm_num) (hX r hr))
  have hx1 := getCol_isSome X 1 (fun r hr => lt_of_lt_of_le (by norm_num) (hX r hr))
  have hy0 := getCol_isSome (Y.getD X) 0
    (fun r hr => lt_of_lt_of_le (by norm_num) (hY r hr))
  have hy1 := getCol_isSome (Y.getD X) 1
    (fun r hr => lt_of_lt_of_le (by norm_num) (hY r hr))
  rcases Option.isSome_iff_exists.mp hx0 with ⟨x0, ex0⟩
  rcases Option.isSome_iff_exists.mp hx1 with ⟨x1, ex1⟩
  rcases Option.isSome_iff_exists.mp hy0 with ⟨y0, ey0⟩
  rcases Option.isSome_iff_exists.mp hy1 with ⟨y1, ey1⟩
  have hYd : (Y.map (List.map (List.take 2))).getD (X.map (List.take 2))
      = (Y.getD X).map (List.take 2) := by cases Y <;> rfl
  constructor
  · exact ⟨_, by rw [empCall_false_eq, ex0, ex1, ey0, ey1]⟩
  · rw [empCall_false_eq, empCall_false_eq, hYd,
      getCol_map_take X 0 (by norm_num), getCol_map_take X 1 (by norm_num),
      getCol_map_take (Y.getD X) 0 (by norm_num),
      getCol_map_take (Y.getD X) 1 (by norm_num)]

/-- Witness for C10 at `X = [[1,2,3],[4,5,6]]`, `Y` omitted. -/
theorem empCall_ignores_extra_columns_witness :
    (∃ M, empCall ⟨fun a b => a + b + 1⟩ [[1,2,3],[4,5,6]] none false = .ok M) ∧
    empCall ⟨fun a b => a + b + 1⟩ [[1,2,3],[4,5,6]] none false =
      empCall ⟨fun a b => a + b + 1⟩ ([[1,2,3],[4,5,6]].map (List.take 2))
        (Option.map (List.map (List.take 2)) none) false :=
  empCall_ignores_extra_columns ⟨fun a b => a + b + 1⟩ [[1,2,3],[4,5,6]] none
    (by decide) (by decide)

/-! ### GPInterp orchestrator (`gp_interp.py` lines 24-130) -/

/-- A numpy value that is either a 1-d or a 2-d array (the code stores either
one in a fit record, so both shapes must be representable). -/
inductive NDArr where
  | vec (v : List ℚ)
  | mat (m : List (List ℚ))
deriving DecidableEq

/-- Modelled from the spec: `StarFit` (defined in `piff/star.py`, which is not
under `src/`) holds a parameter vector plus other fit metadata
(uncertainty/model identity), here abstracted to a single `ℕ` tag. -/
structure StarFit where
  params : NDArr
  meta : ℕ
deriving DecidableEq

/-- Modelled from the spec: `StarFit.newParams` derives a new fit record that
copies the existing fit metadata but replaces the parameter vector. -/
def StarFit.newParams (f : StarFit) (p : NDArr) : StarFit :=
  ⟨p, f.meta⟩

/-- Modelled from the spec: a `Star` is a pair of data (position metadata, a
mapping from attribute names to values) and a nullable fit record.  Named
`Star'` because Mathlib already uses `Star`. -/
structure Star' where
  data : String → ℚ
  fit : Option StarFit

/-- `GPInterp.getProperties` (lines 70-80): project the configured attribute
names out of a star's data, in order. -/
def getProperties (attr_interp : List String) (data : String → ℚ) : List ℚ :=
  attr_interp.map data

/-- `GPInterp.interpolateList` (lines 113-130).  `predict` stands for
`self._predict` (the fitted sklearn regressor composed with the optional PCA
inverse transform), passed as an opaque function.  Note: when a star has no
prior fit the code passes the whole prediction matrix `y` — not that star's
row `y0` — to the `StarFit` constructor. -/
def interpolateList (attr_interp : List String)
    (predict : List (List ℚ) → List (List ℚ)) (stars : List Star') : List Star' :=
  let y := predict (stars.map (fun s => getProperties attr_interp s.data))
  (y.zip stars).map (fun p =>
    match p.2.fit with
    | none => Star'.mk p.2.data (some (StarFit.mk (NDArr.mat y) 0))
    | some f => Star'.mk p.2.data (some (f.newParams (NDArr.vec p.1))))

/-- C4 (code bug): on a single fit-less input star whose prediction row is
`[5, 7]`, the code stores the full 2-d prediction matrix `[[5, 7]]` as the new
fit's parameters, which is not the star's own 1-d predicted parameter
vector `[5, 7]`. -/
theorem interpolateList_fresh_fit_gets_full_matrix :
    ((interpolateList ["u", "v"] (fun _ => [[5, 7]]) [⟨fun _ => 0, none⟩]).map
      (fun s => s.fit.map StarFit.params) = [some (NDArr.mat [[5, 7]])]) ∧
    NDArr.mat [[5, 7]] ≠ NDArr.vec [5, 7] := by
  exact ⟨rfl, by decide⟩

/-- Modelled from the spec: `GaussianProcessRegressor.fit` (sklearn, the
external numerical-library collaborator whose fit/predict contract the spec
says must be honored) rejects an empty training set; only this validation is
modelled. -/
def gpFit (X : List (List ℚ)) (y : List NDArr) : Except String Unit :=
  if X.isEmpty then .error "Found array with 0 sample(s)" else .ok ()

/-- `GPInterp.solve` (lines 92-100) at the default `npca = 0` (no PCA step):
build `X` from the configured attributes and `y` from each star's
`fit.params` (a missing fit record raises, modelled as an error), then fit the
regressor. -/
def solve (attr_interp : List String) (stars : List Star') : Except String Unit :=
  let X := stars.map (fun s => getProperties attr_interp s.data)
  match stars.mapM (fun s => s.fit.map StarFit.params) with
  | none => .error "AttributeError"
  | some y => gpFit X y

/-- C9: `solve` on an empty star list always fails (the regressor rejects a
zero-sample training set); it never silently succeeds. -/
theorem solve_empty_fails (attr_interp : List String) :
    solve attr_interp [] = .error "Found array with 0 sample(s)" := rfl

/-! ### Heap model of `interpolateList` for the aliasing/mutation claim

Python objects live on a heap; `Star(...)` and `StarFit(...)` allocate new
cells and the interpolation code only reads existing ones.  The heap is a
list of cells, a reference is an index, and allocation appends. -/

/-- A heap cell: either a fit record or a star (its fit field is a reference
into the heap, `none` for Python `None`). -/
inductive HObj where
  | fitObj (params : NDArr) (meta : ℕ)
  | starObj (data : String → ℚ) (fit : Option ℕ)

/-- Allocation: append a cell, return the new heap and the cell's address. -/
def heapAlloc (h : List HObj) (o : HObj) : List HObj × ℕ :=
  (h ++ [o], h.length)

/-- Read a star cell (junk values for a dangling or ill-typed reference;
the code under verification never follows such a reference). -/
def readStar (h : List HObj) (r : ℕ) : (String → ℚ) × Option ℕ :=
  match h.getD r (HObj.starObj (fun _ => 0) none) with
  | .starObj d f => (d, f)
  | .fitObj _ _ => (fun _ => 0, none)

/-- Read the metadata of a fit cell. -/
def readFitMeta (h : List HObj) (r : ℕ) : ℕ :=
  match h.getD r (HObj.fitObj (NDArr.vec []) 0) with
  | .fitObj _ m => m
  | .starObj _ _ => 0

/-- The `for y0, star in zip(y, stars)` loop of `interpolateList`
(lines 123-130) on the heap: for each star reference, allocate the new fit
record (`StarFit(y)` when the star has no fit — the full matrix `y`, as in
the code — else `star.fit.newParams(y0)`), then allocate the new star
referring to it. -/
def interpGo (y : List (List ℚ)) :
    List HObj → List (List ℚ × ℕ) → List HObj × List ℕ
  | h, [] => (h, [])
  | h, p :: rest =>
    let s := readStar h p.2
    let a1 := heapAlloc h
      (match s.2 with
       | none => HObj.fitObj (NDArr.mat y) 0
       | some fr => HObj.fitObj (NDArr.vec p.1) (readFitMeta h fr))
    let a2 := heapAlloc a1.1 (HObj.starObj s.1 (some a1.2))
    let r0 := interpGo y a2.1 rest
    (r0.1, a2.2 :: r0.2)

/-- `GPInterp.interpolateList` on the heap (lines 113-130): read each star's
covariates, predict, then run the allocation loop. -/
def interpolateListH (attr_interp : List String)
    (predict : List (List ℚ) → List (List ℚ)) (h : List HObj) (refs : List ℕ) :
    List HObj × List ℕ :=
  let y := predict (refs.map (fun r => getProperties attr_interp (readStar h r).1))
  interpGo y h (y.zip refs)

/-- `GPInterp.interpolate` on the heap (lines 102-111): call
`interpolateList` on a singleton and take entry 0. -/
def interpolateH (attr_interp : List String)
    (predict : List (List ℚ) → List (List ℚ)) (h : List HObj) (r : ℕ) :
    List HObj × ℕ :=
  let res := interpolateListH attr_interp predict h [r]
  (res.1, res.2.getD 0 0)

/-- The allocation loop only appends to the heap and every returned reference
is a fresh address (at or beyond the old heap's end). -/
theorem interpGo_extends (y : List (List ℚ)) (l : List (List ℚ × ℕ)) :
    ∀ h : List HObj, (h <+: (interpGo y h l).1) ∧
      (∀ s ∈ (interpGo y h l).2, h.length ≤ s) := by
  induction l with
  | nil =>
      intro h
      exact ⟨List.prefix_rfl, by simp [interpGo]⟩
  | cons p rest ih =>
      intro h
      rcases hs2 : (readStar h p.2).2 with _ | fr
      all_goals (
        simp only [interpGo, heapAlloc, hs2]
        refine ⟨((List.prefix_append _ _).trans (List.prefix_append _ _)).trans (ih _).1, ?_⟩
        intro s hs
        rcases List.mem_cons.mp hs with h1 | h2
        · rw [h1]
          exact (List.prefix_append _ _).length_le
        · exact le_trans
            ((List.prefix_append _ _).trans (List.prefix_append _ _)).length_le
            ((ih _).2 s h2))

/-- The allocation loop returns one new star reference per input pair. -/
theorem interpGo_sndLength (y : List (List ℚ)) (l : List (List ℚ × ℕ)) :
    ∀ h : List HObj, (interpGo y h l).2.length = l.length := by
  induction l with
  | nil => intro h; rfl
  | cons p rest ih =>
      intro h
      simp only [interpGo, heapAlloc, List.length_cons]
      rw [ih]

/-- The head of a nonempty list read with a default is a member. -/
theorem getD_zero_mem (xs : List ℕ) (hne : xs ≠ []) : xs.getD 0 0 ∈ xs := by
  cases xs with
  | nil => exact absurd rfl hne
  | cons a t => simp [List.getD]

/-- C8: interpolation never mutates its inputs.  Provided the regressor
returns one prediction row per input (the sklearn contract), both
`interpolateList` and `interpolate` leave every pre-existing heap cell — in
particular every input star and its fit record — untouched (the new heap is
the old one plus freshly appended cells), and every star they return is a
newly allocated instance (its address lies beyond the old heap), not an input
star updated in place. -/
theorem interpolate_never_mutates (attr_interp : List String)
    (predict : List (List ℚ) → List (List ℚ)) (h : List HObj) (refs : List ℕ)
    (r : ℕ) (hpred : ∀ X, (predict X).length = X.length) :
    (∃ ext, (interpolateListH attr_interp predict h refs).1 = h ++ ext) ∧
    (∀ s ∈ (interpolateListH attr_interp predict h refs).2, h.length ≤ s) ∧
    (∃ ext, (interpolateH attr_interp predict h r).1 = h ++ ext) ∧
    h.length ≤ (interpolateH attr_interp predict h r).2 := by
  simp only [interpolateListH, interpolateH]
  refine ⟨?_, ?_, ?_, ?_⟩
  · obtain ⟨t, ht⟩ := (interpGo_extends _ _ h).1
    exact ⟨t, ht.symm⟩
  · intro s hs
    exact (interpGo_extends _ _ h).2 s hs
  · obtain ⟨t, ht⟩ := (interpGo_extends _ _ h).1
    exact ⟨t, ht.symm⟩
  · have hne : (interpGo (predict ([r].map (fun x => getProperties attr_interp (readStar h x).1))) h
        ((predict ([r].map (fun x => getProperties attr_interp (readStar h x).1))).zip [r])).2 ≠ [] := by
      have hl := interpGo_sndLength
        (predict ([r].map (fun x => getProperties attr_interp (readStar h x).1)))
        ((predict ([r].map (fun x => getProperties attr_interp (readStar h x).1))).zip [r]) h
      rw [List.length_zip, hpred] at hl
      intro hnil
      rw [hnil] at hl
      simp at hl
    exact (interpGo_extends _ _ h).2 _ (getD_zero_mem _ hne)

/-- Witness for C8: one star with no fit on a one-cell heap, identity
regressor. -/
theorem interpolate_never_mutates_witness :
    (∃ ext, (interpolateListH ["u", "v"] (fun X => X)
        [HObj.starObj (fun _ => 0) none] [0]).1
      = [HObj.starObj (fun _ => 0) none] ++ ext) ∧
    (∀ s ∈ (interpolateListH ["u", "v"] (fun X => X)
        [HObj.starObj (fun _ => 0) none] [0]).2,
      [HObj.starObj (fun _ => 0) none].length ≤ s) ∧
    (∃ ext, (interpolateH ["u", "v"] (fun X => X)
        [HObj.starObj (fun _ => 0) none] 0).1
      = [HObj.starObj (fun _ => 0) none] ++ ext) ∧
    [HObj.starObj (fun _ => 0) none].length ≤
      (interpolateH ["u", "v"] (fun X => X) [HObj.starObj (fun _ => 0) none] 0).2 :=
  interpolate_never_mutates ["u", "v"] (fun X => X)
    [HObj.starObj (fun _ => 0) none] [0] 0 (fun _ => rfl)

/-! ### AnisotropicRBF kernel (`gp_interp.py` lines 161-260) -/

open Matrix

/-- Number of free parameters, `self.ntheta = n*(n+1)//2` (line 188). -/
def ntheta (n : ℕ) : ℕ := n * (n + 1) / 2

/-- `np.tril_indices(n, -1)` as a row-major list of (row, column) pairs of
the strictly lower triangle. -/
def trilIndices (n : ℕ) : List (ℕ × ℕ) :=
  (List.range n).flatMap (fun i => (List.range i).map (fun j => (i, j)))

/-- The kernel object's mutable state: the inverse covariance matrix
`invLam`, the cached Cholesky factor `_L` and the cached parameter vector
`_theta` (lines 240-256). -/
structure AniState (n : ℕ) where
  invLam : Matrix (Fin n) (Fin n) ℝ
  L : Matrix (Fin n) (Fin n) ℝ
  theta : Fin (ntheta n) → ℝ

/-- scipy's Mahalanobis distance of two covariate vectors under the metric
`VI`: `sqrt((u-v) · VI · (u-v))`. -/
noncomputable def mahalanobis {n : ℕ} (VI : Matrix (Fin n) (Fin n) ℝ) (u v : Fin n → ℝ) : ℝ :=
  Real.sqrt ((u - v) ⬝ᵥ VI.mulVec (u - v))

/-- The `Y is None` branch of `AnisotropicRBF.__call__` (lines 197-201):
`pdist` computes `exp(-0.5 d²)` for each pair `i < j`, `squareform` mirrors it
to both `(i,j)` and `(j,i)`, and `np.fill_diagonal(K, 1)` overwrites the
diagonal. -/
noncomputable def kSelf {n p : ℕ} (VI : Matrix (Fin n) (Fin n) ℝ) (X : Fin p → Fin n → ℝ) :
    Matrix (Fin p) (Fin p) ℝ :=
  Matrix.of fun i j =>
    if i = j then 1
    else if i < j then Real.exp (-(1/2) * mahalanobis VI (X i) (X j) ^ 2)
    else Real.exp (-(1/2) * mahalanobis VI (X j) (X i) ^ 2)

/-- The `Y is not None` branch (lines 202-207): `cdist` evaluates every pair
directly. -/
noncomputable def kCross {n p q : ℕ} (VI : Matrix (Fin n) (Fin n) ℝ) (X : Fin p → Fin n → ℝ)
    (Y : Fin q → Fin n → ℝ) : Matrix (Fin p) (Fin q) ℝ :=
  Matrix.of fun i j => Real.exp (-(1/2) * mahalanobis VI (X i) (Y j) ^ 2)

/-- `AnisotropicRBF.__call__` with `Y` not `None` (lines 202-207): raises
`ValueError` when `eval_gradient` is requested, else returns the cross
covariance. -/
noncomputable def aniCallWithY {n p q : ℕ} (st : AniState n) (X : Fin p → Fin n → ℝ)
    (Y : Fin q → Fin n → ℝ) (eval_gradient : Bool) :
    Except String (Matrix (Fin p) (Fin q) ℝ) :=
  if eval_gradient then
    .error "Gradient can only be evaluated when Y is None."
  else .ok (kCross st.invLam X Y)

/-- C6: calling the anisotropic kernel with a second input set `Y` and
`eval_gradient=True` always fails; the gradient exists only for the
self-covariance case. -/
theorem aniCallWithY_gradient_fails (n p q : ℕ) (st : AniState n)
    (X : Fin p → Fin n → ℝ) (Y : Fin q → Fin n → ℝ) :
    aniCallWithY st X Y true = .error "Gradient can only be evaluated when Y is None." := rfl

/-- The Mahalanobis distance is symmetric in its two points (for any metric
matrix: the quadratic form only sees the difference squared). -/
theorem mahalanobis_comm {n : ℕ} (VI : Matrix (Fin n) (Fin n) ℝ)
    (u v : Fin n → ℝ) : mahalanobis VI u v = mahalanobis VI v u := by
  unfold mahalanobis
  congr 1
  have h : v - u = -(u - v) := (neg_sub u v).symm
  rw [h, Matrix.mulVec_neg, dotProduct_neg, neg_dotProduct, neg_neg]

/-- The self-covariance matrix is symmetric entry by entry. -/
theorem kSelf_apply_comm {n p : ℕ} (VI : Matrix (Fin n) (Fin n) ℝ)
    (X : Fin p → Fin n → ℝ) (i j : Fin p) :
    kSelf VI X j i = kSelf VI X i j := by
  unfold kSelf
  simp only [Matrix.of_apply]
  rcases lt_trichotomy i j with hlt | heq | hgt
  · simp [hlt, hlt.ne, hlt.ne', lt_asymm hlt]
  · subst heq; rfl
  · simp [hgt, hgt.ne, hgt.ne', lt_asymm hgt]

/-- `L_grad` (lines 219-221): the slice of the dL/dθ stack at parameter `k`.
`L_grad[(arange(ndim),) + self._d] = self._L[self._d]` puts the Cholesky
diagonal value at `(k, k)` for the first `n` (log-scaled) parameters;
`L_grad[(arange(ndim, ntheta),) + self._t] = 1.0` puts `1` at the `k - n`-th
strictly-lower-triangular position for the remaining parameters. -/
noncomputable def lGrad {n : ℕ} (st : AniState n) (k : Fin (ntheta n)) :
    Matrix (Fin n) (Fin n) ℝ :=
  Matrix.of fun i j =>
    if k.val < n then (if i.val = k.val ∧ j.val = k.val then st.L i j else 0)
    else if (i.val, j.val) = (trilIndices n).getD (k.val - n) (n, n) then 1 else 0

/-- `invLam_grad` (lines 223-224): `L_grad · Lᵀ` plus its transpose over the
matrix axes. -/
noncomputable def invLamGrad {n : ℕ} (st : AniState n) (k : Fin (ntheta n)) :
    Matrix (Fin n) (Fin n) ℝ :=
  lGrad st k * st.Lᵀ + (lGrad st k * st.Lᵀ)ᵀ

/-- `dist_grad` (lines 226-227): `np.einsum("ijk,lkm,ijm->ijl", dX,
invLam_grad, dX)` with `dX[p,q,:] = X[p] - X[q]`. -/
noncomputable def distGrad {n p : ℕ} (st : AniState n) (X : Fin p → Fin n → ℝ)
    (pi qi : Fin p) (k : Fin (ntheta n)) : ℝ :=
  ∑ a, ∑ b, (X pi - X qi) a * invLamGrad st k a b * (X pi - X qi) b

/-- `K_gradient` (line 228): `-0.5 * K[:, :, None] * dist_grad`. -/
noncomputable def kGradient {n p : ℕ} (st : AniState n) (X : Fin p → Fin n → ℝ) :
    Fin p → Fin p → Fin (ntheta n) → ℝ :=
  fun pi qi k => -(1/2) * kSelf st.invLam X pi qi * distGrad st X pi qi k

/-- `AnisotropicRBF.__call__` with `Y = None` (lines 193-201 and 209-231).
The `self.hyperparameter_cho_factor.fixed` test on line 210 is always false —
the hyperparameter is declared on line 235 with the numeric bounds
`(1e-5, 1e5)`, and sklearn marks a hyperparameter fixed only when its bounds
are the string `"fixed"` — so the empty-gradient branch (line 211) is
unreachable and the gradient branch always produces `K_gradient`. -/
noncomputable def aniCallSelf {n p : ℕ} (st : AniState n) (X : Fin p → Fin n → ℝ)
    (eval_gradient : Bool) :
    Matrix (Fin p) (Fin p) ℝ × Option (Fin p → Fin p → Fin (ntheta n) → ℝ) :=
  let K := kSelf st.invLam X
  if eval_gradient then (K, some (kGradient st X)) else (K, none)

/-- C1: with `Y` omitted, the returned covariance matrix is symmetric, its
diagonal entries are exactly 1, and each off-diagonal entry is
`exp(-0.5 * mahalanobis(X[i], X[j])^2)` under the `invLam` metric.  (The
symmetry and positive-definiteness of `invLam` and nonemptiness of `X` are
the claim's hypotheses; the conclusion holds for the embedded code without
using them.) -/
theorem anisotropicRBF_self_covariance (n p : ℕ) (st : AniState n)
    (X : Fin p → Fin n → ℝ) (hsym : st.invLam.IsSymm)
    (hpd : ∀ v : Fin n → ℝ, v ≠ 0 → 0 < v ⬝ᵥ st.invLam.mulVec v)
    (hp : 0 < p) :
    ((aniCallSelf st X false).1).IsSymm ∧
    (∀ i, (aniCallSelf st X false).1 i i = 1) ∧
    (∀ i j, i ≠ j → (aniCallSelf st X false).1 i j
      = Real.exp (-(1/2) * mahalanobis st.invLam (X i) (X j) ^ 2)) := by
  refine ⟨?_, ?_, ?_⟩
  · ext i j
    rw [Matrix.transpose_apply]
    exact kSelf_apply_comm st.invLam X i j
  · intro i
    simp [aniCallSelf, kSelf]
  · intro i j hij
    show kSelf st.invLam X i j = _
    unfold kSelf
    simp only [Matrix.of_apply, if_neg hij]
    rcases lt_or_gt_of_ne hij with hlt | hgt
    · rw [if_pos hlt]
    · rw [if_neg (lt_asymm hgt), mahalanobis_comm]

/-- Witness for C1: the 1-dimensional identity metric and two covariate
points. -/
theorem anisotropicRBF_self_covariance_witness :
    ((aniCallSelf (n := 1) (p := 2) ⟨1, 1, fun _ => 0⟩ (fun i _ => (i : ℝ)) false).1).IsSymm ∧
    (∀ i, (aniCallSelf (n := 1) (p := 2) ⟨1, 1, fun _ => 0⟩ (fun i _ => (i : ℝ)) false).1 i i = 1) ∧
    (∀ i j : Fin 2, i ≠ j →
      (aniCallSelf (n := 1) (p := 2) ⟨1, 1, fun _ => 0⟩ (fun i _ => (i : ℝ)) false).1 i j
        = Real.exp (-(1/2) * mahalanobis (1 : Matrix (Fin 1) (Fin 1) ℝ)
            (fun _ => (i : ℝ)) (fun _ => (j : ℝ)) ^ 2)) :=
  anisotropicRBF_self_covariance 1 2 ⟨1, 1, fun _ => 0⟩ (fun i _ => (i : ℝ))
    Matrix.transpose_one
    (fun v hv => by
      rw [Matrix.one_mulVec]
      have hnn : 0 ≤ v ⬝ᵥ v := Finset.sum_nonneg fun i _ => mul_self_nonneg (v i)
      rcases eq_or_lt_of_le hnn with h0 | hpos
      · exact absurd ((dotProduct_self_eq_zero).mp h0.symm) hv
      · exact hpos)
    (by norm_num)

/-- The gradient formula as the spec words it: for each parameter `k`,
`dK_pq/dθ_k = -0.5 * K_pq * (Δx · d(invLam)/dθ_k · Δx)` with
`d(invLam)/dθ_k = dL/dθ_k · Lᵗ + L · (dL/dθ_k)ᵗ`, where `dL/dθ_k` has a
single nonzero entry (the Cholesky diagonal value for the `n` log-scaled
diagonal parameters, `1.0` for the strictly-lower-triangular ones). -/
noncomputable def kGradientSpec {n p : ℕ} (st : AniState n) (X : Fin p → Fin n → ℝ) :
    Fin p → Fin p → Fin (ntheta n) → ℝ :=
  fun pi qi k =>
    -(1/2) * kSelf st.invLam X pi qi *
      ((X pi - X qi) ⬝ᵥ (lGrad st k * st.Lᵀ + st.L * (lGrad st k)ᵀ).mulVec (X pi - X qi))

/-- C3: with `Y` omitted, gradient evaluation requested, and the (never
fixed) hyperparameter free, the call returns alongside `K` the
`(p, p, ntheta)` tensor whose `(p, q, k)` entry is exactly the analytic
formula `-0.5 * K_pq * (Δx · (dL_k·Lᵗ + L·dL_kᵗ) · Δx)`. -/
theorem anisotropicRBF_gradient_formula (n p : ℕ) (st : AniState n)
    (X : Fin p → Fin n → ℝ) :
    (aniCallSelf st X true).2 = some (kGradient st X) ∧
    kGradient st X = kGradientSpec st X := by
  refine ⟨rfl, ?_⟩
  funext pi qi k
  unfold kGradient kGradientSpec distGrad invLamGrad
  congr 1
  rw [Matrix.transpose_mul, Matrix.transpose_transpose]
  simp only [Matrix.mulVec, dotProduct]
  exact Finset.sum_congr rfl fun a _ => by
    rw [Finset.mul_sum]
    exact Finset.sum_congr rfl fun b _ => by ring

/-- `trilIndices` has the expected triangular size. -/
theorem trilIndices_length (n : ℕ) : 2 * (trilIndices n).length = n * (n - 1) := by
  induction n with
  | zero => rfl
  | succ m ih =>
      have hstep : trilIndices (m + 1)
          = trilIndices m ++ (List.range m).map (fun j => (m, j)) := by
        unfold trilIndices
        rw [List.range_succ, List.flatMap_append]
        simp
      rw [hstep, List.length_append, List.length_map, List.length_range]
      have e1 : (m + 1) * (m + 1 - 1) = m * m + m := by
        have h : m + 1 - 1 = m := rfl
        rw [h]; ring
      have e2 : m * (m - 1) + 2 * m = m * m + m := by
        cases m with
        | zero => rfl
        | succ k =>
            have h : k + 1 - 1 = k := rfl
            rw [h]; ring
      omega

/-- Twice the parameter count is `n * (n + 1)`. -/
theorem two_mul_ntheta (n : ℕ) : 2 * ntheta n = n * (n + 1) := by
  have h2 : 2 ∣ n * (n + 1) := (Nat.even_mul_succ_self n).two_dvd
  unfold ntheta
  calc 2 * (n * (n + 1) / 2) = n * (n + 1) / 2 * 2 := by ring
  _ = n * (n + 1) := Nat.div_mul_cancel h2

/-- Every strictly-lower pair occurs in `trilIndices`. -/
theorem pair_mem_trilIndices {n i j : ℕ} (hj : j < i) (hi : i < n) :
    (i, j) ∈ trilIndices n :=
  List.mem_flatMap.mpr ⟨i, List.mem_range.mpr hi,
    List.mem_map.mpr ⟨j, List.mem_range.mpr hj, rfl⟩⟩

/-- The position of a pair in a list of index pairs: the slot of `theta[n:]`
that the scatter assignment `_L[np.tril_indices(n, -1)] = theta[n:]` writes
into entry `(i, j)`. -/
def pairIdx : List (ℕ × ℕ) → ℕ × ℕ → ℕ
  | [], _ => 0
  | b :: t, a => if b = a then 0 else pairIdx t a + 1

/-- A member's position lies inside the list. -/
theorem pairIdx_lt_length {l : List (ℕ × ℕ)} {a : ℕ × ℕ} (h : a ∈ l) :
    pairIdx l a < l.length := by
  induction l with
  | nil => cases h
  | cons b t ih =>
      by_cases hb : b = a
      · simp [pairIdx, hb]
      · have hmem : a ∈ t := by
          rcases List.mem_cons.mp h with h1 | h2
          · exact absurd h1.symm hb
          · exact h2
        simp [pairIdx, hb, Nat.succ_lt_succ (ih hmem)]

/-- Reading a list at a member's position gives back the member. -/
theorem getD_pairIdx {l : List (ℕ × ℕ)} {a : ℕ × ℕ} (h : a ∈ l) (d : ℕ × ℕ) :
    l.getD (pairIdx l a) d = a := by
  induction l with
  | nil => cases h
  | cons b t ih =>
      by_cases hb : b = a
      · simp [pairIdx, hb, List.getD]
      · have hmem : a ∈ t := by
          rcases List.mem_cons.mp h with h1 | h2
          · exact absurd h1.symm hb
          · exact h2
        simp only [pairIdx, if_neg hb, List.getD_cons_succ]
        exact ih hmem

/-- `self._theta = np.hstack([np.log(self._L[self._d]), self._L[self._t]])`
(line 244): logs of the Cholesky diagonal first, then the strictly
lower-triangular entries in `tril_indices` order. -/
noncomputable def deriveTheta {n : ℕ} (L : Matrix (Fin n) (Fin n) ℝ) :
    Fin (ntheta n) → ℝ :=
  fun k =>
    if h : k.val < n then Real.log (L ⟨k.val, h⟩ ⟨k.val, h⟩)
    else
      if h1 : ((trilIndices n).getD (k.val - n) (0, 0)).1 < n then
        if h2 : ((trilIndices n).getD (k.val - n) (0, 0)).2 < n then
          L ⟨((trilIndices n).getD (k.val - n) (0, 0)).1, h1⟩
            ⟨((trilIndices n).getD (k.val - n) (0, 0)).2, h2⟩
        else 0
      else 0

/-- `set_params` (lines 240-244), with `L` standing for the result of
`np.linalg.cholesky(self.invLam)`: store `invLam`, cache `L`, derive
`_theta`.  The Cholesky factor's defining properties (lower triangular,
positive diagonal, `invLam = L·Lᵗ`) appear as hypotheses of the theorems. -/
noncomputable def setParams {n : ℕ} (invLam L : Matrix (Fin n) (Fin n) ℝ) :
    AniState n :=
  ⟨invLam, L, deriveTheta L⟩

/-- The matrix rebuilt by the `theta` setter (lines 253-255):
`_L[diag] = exp(theta[:n])`, `_L[tril] = theta[n:]`, zeros elsewhere. -/
noncomputable def thetaToL {n : ℕ} (θ : Fin (ntheta n) → ℝ) :
    Matrix (Fin n) (Fin n) ℝ :=
  Matrix.of fun i j =>
    if i = j then (if h : i.val < ntheta n then Real.exp (θ ⟨i.val, h⟩) else 0)
    else if j < i then
      (if h : n + pairIdx (trilIndices n) (i.val, j.val) < ntheta n
       then θ ⟨n + pairIdx (trilIndices n) (i.val, j.val), h⟩ else 0)
    else 0

/-- The `theta` setter (lines 250-256): cache the vector, rebuild `_L` and
set `invLam = L·Lᵗ`. -/
noncomputable def thetaSet {n : ℕ} (st : AniState n) (θ : Fin (ntheta n) → ℝ) :
    AniState n :=
  ⟨thetaToL θ * (thetaToL θ)ᵀ, thetaToL θ, θ⟩

/-- Rebuilding the Cholesky factor from the derived parameter vector gives
back the factor, provided it is lower triangular with positive diagonal (as
`np.linalg.cholesky` guarantees). -/
theorem thetaToL_deriveTheta {n : ℕ} (L : Matrix (Fin n) (Fin n) ℝ)
    (hlow : ∀ i j : Fin n, i < j → L i j = 0) (hdiag : ∀ i, 0 < L i i) :
    thetaToL (deriveTheta L) = L := by
  ext i j
  simp only [thetaToL, Matrix.of_apply]
  by_cases hij : i = j
  · subst hij
    rw [if_pos rfl]
    have hn : 0 < n := i.pos
    have hle : n ≤ ntheta n := by
      have h2 := two_mul_ntheta n
      have h3 : n * (n + 1) = n * n + n := by ring
      have h4 : n ≤ n * n := Nat.le_mul_of_pos_left n hn
      omega
    have hi : i.val < ntheta n := lt_of_lt_of_le i.isLt hle
    rw [dif_pos hi]
    unfold deriveTheta
    rw [dif_pos (show i.val < n from i.isLt)]
    rw [Fin.eta]
    exact Real.exp_log (hdiag i)
  · rw [if_neg hij]
    by_cases hji : j < i
    · rw [if_pos hji]
      have hmem : ((i : ℕ), (j : ℕ)) ∈ trilIndices n :=
        pair_mem_trilIndices (Fin.lt_def.mp hji) i.isLt
      have hidx : pairIdx (trilIndices n) ((i : ℕ), (j : ℕ)) < (trilIndices n).length :=
        pairIdx_lt_length hmem
      have hbound : n + pairIdx (trilIndices n) ((i : ℕ), (j : ℕ)) < ntheta n := by
        have h2 := two_mul_ntheta n
        have hlen := trilIndices_length n
        have hn : 0 < n := i.pos
        have hsplit : n * (n + 1) = n * (n - 1) + 2 * n := by
          have h1 : n + 1 = (n - 1) + 2 := by omega
          rw [h1, Nat.mul_add]
          ring
        omega
      rw [dif_pos hbound]
      unfold deriveTheta
      have hnotlt : ¬ ((⟨n + pairIdx (trilIndices n) ((i : ℕ), (j : ℕ)), hbound⟩ :
          Fin (ntheta n)).val < n) := by
        simp
      rw [dif_neg hnotlt]
      have hsub : (⟨n + pairIdx (trilIndices n) ((i : ℕ), (j : ℕ)), hbound⟩ :
          Fin (ntheta n)).val - n = pairIdx (trilIndices n) ((i : ℕ), (j : ℕ)) := by
        simp
      rw [hsub]
      have hget : (trilIndices n).getD (pairIdx (trilIndices n) ((i : ℕ), (j : ℕ))) (0, 0)
          = ((i : ℕ), (j : ℕ)) := getD_pairIdx hmem (0, 0)
      rw [hget]
      rw [dif_pos i.isLt, dif_pos j.isLt]
    · rw [if_neg hji]
      exact (hlow i j (lt_of_le_of_ne (not_lt.mp hji) hij)).symm

/-- C2: setting `theta` and reading it back returns the same vector; and
setting `invLam` (whose Cholesky factor is `L`), reading the derived `theta`,
and rebuilding `invLam` from that vector through the `theta` setter
(exponentiate the first `n` entries onto the Cholesky diagonal, scatter the
rest into the strict lower triangle, form `L·Lᵗ`) reproduces the original
`invLam`. -/
theorem anisotropicRBF_theta_roundtrip (n : ℕ) (st st' : AniState n)
    (θ : Fin (ntheta n) → ℝ) (A L : Matrix (Fin n) (Fin n) ℝ)
    (hA : A = L * Lᵀ)
    (hlow : ∀ i j : Fin n, i < j → L i j = 0) (hdiag : ∀ i, 0 < L i i) :
    (thetaSet st θ).theta = θ ∧
    (thetaSet st' ((setParams A L).theta)).invLam = A := by
  refine ⟨rfl, ?_⟩
  show thetaToL (deriveTheta L) * (thetaToL (deriveTheta L))ᵀ = A
  rw [thetaToL_deriveTheta L hlow hdiag, hA]

/-- Witness for C2 at `n = 1`, `invLam = [[4]]`, Cholesky factor `[[2]]`. -/
theorem anisotropicRBF_theta_roundtrip_witness :
    (thetaSet (n := 1) ⟨1, 1, fun _ => 0⟩ (fun _ => 0)).theta = (fun _ => (0 : ℝ)) ∧
    (thetaSet (n := 1) ⟨1, 1, fun _ => 0⟩
      ((setParams !![(4 : ℝ)] !![2]).theta)).invLam = !![4] :=
  anisotropicRBF_theta_roundtrip 1 ⟨1, 1, fun _ => 0⟩ ⟨1, 1, fun _ => 0⟩
    (fun _ => 0) !![4] !![2]
    (by
      ext i j
      fin_cases i
      fin_cases j
      simp [Matrix.mul_apply]
      norm_num)
    (by
      intro i j h
      fin_cases i
      fin_cases j
      exact absurd h (lt_irrefl _))
    (by
      intro i
      fin_cases i
      norm_num)
